import Mathlib

/-!
Verification of the treesaver index core (`treesaver.ui.Index`,
`treesaver.ui.Settings`, `treesaver.array`).

JavaScript values are embedded as the inductive `JSVal`; JS objects are
association lists in key-insertion order; JS arrays are Lean lists.  The
`Document`/`Index` tree and its operations (`walk`, `update`, `parse`,
`parseEntry`, `get`, `getDocumentIndex`) are translated literally from
`src/lib/array.js`.  `TreeNode.appendChild` and `Document.equals` are not part
of the sources, so they are modelled from the specification and marked as such.
-/

set_option maxHeartbeats 1000000

namespace Treesaver

/-- A JavaScript value: `undefined`, `null`, booleans, (integer) numbers,
strings, arrays and plain objects (fields in key-insertion order). -/
inductive JSVal : Type where
  | undefined : JSVal
  | null : JSVal
  | bool (b : Bool) : JSVal
  | num (n : Int) : JSVal
  | str (s : String) : JSVal
  | arr (elems : List JSVal) : JSVal
  | obj (fields : List (String × JSVal)) : JSVal

/-- JavaScript truthiness of a `JSVal` (`if (v)`). -/
def truthy : JSVal → Bool
  | .undefined => false
  | .null => false
  | .bool b => b
  | .num n => n != 0
  | .str s => s != ""
  | .arr _ => true
  | .obj _ => true

/-- `v !== false`, negated: does `v` equal the literal boolean `false`? -/
def literalFalse : JSVal → Bool
  | .bool false => true
  | _ => false

/-- `Array.isArray(v)`. -/
def JSVal.isArr : JSVal → Bool
  | .arr _ => true
  | _ => false

/-- Is `v` a JavaScript string (`typeof v === 'string'`)? -/
def JSVal.isStr : JSVal → Bool
  | .str _ => true
  | _ => false

/-- First-match lookup in an association list (JS property access on an
object whose keys are unique). -/
def alookup {α : Type} : List (String × α) → String → Option α
  | [], _ => none
  | (k, v) :: rest, key => if k = key then some v else alookup rest key

/-- JS property read `v[key]`: a missing field, or a read on a non-object,
yields `undefined`. -/
def getField : JSVal → String → JSVal
  | .obj fields, key => (alookup fields key).getD .undefined
  | _, _ => .undefined

/-- `Object.keys(v)` for an object: its keys in insertion order. -/
def jsKeys : JSVal → List String
  | .obj fields => fields.map Prod.fst
  | _ => []

/-- A document node of the index tree: canonical url, metadata mapping and
ordered children (`treesaver.ui.Document`, a `TreeNode`). -/
inductive Document : Type where
  | mk (url : String) (meta : List (String × JSVal)) (children : List Document)

/-- The canonical url of a document. -/
def Document.url : Document → String
  | .mk u _ _ => u

/-- The metadata mapping of a document. -/
def Document.meta : Document → List (String × JSVal)
  | .mk _ m _ => m

/-- The ordered children of a document. -/
def Document.children : Document → List Document
  | .mk _ _ c => c

/-- Modelled from the spec: `Document.equals` is not under `src/` (only its
callers are).  Per §3/§4.2 two documents are equal iff their canonical url
strings are identical. -/
def Document.equalsDoc (d other : Document) : Bool := d.url == other.url

/-- Modelled from the spec: the url-string overload of `Document.equals`
(§4.2): a document equals a plain url string iff its canonical url is that
string. -/
def Document.equalsUrl (d : Document) (u : String) : Bool := d.url == u

/-- Modelled from the spec: `TreeNode.appendChild` is not under `src/` (only
its callers are).  Per §4.1 it appends `node` to the end of `children` and
returns it, and returns the unchanged input, appending nothing, when `node`
is null/absent. -/
def appendChild (children : List Document) (node : Option Document) :
    List Document × Option Document :=
  match node with
  | none => (children, none)
  | some d => (children ++ [d], some d)

/-- `treesaver.ui.Index.prototype.walk`: depth-first walk driven by
`children.every(entry => fn(entry) !== false && walk(entry.children, fn))`.
The visitor is stateful (`σ`) and returns an arbitrary JS value; the walk
returns the final state and `every`'s boolean. -/
def walk {σ : Type} (fn : σ → Document → σ × JSVal) :
    List Document → σ → σ × Bool
  | [], s => (s, true)
  | d :: ds, s =>
    let p := fn s d
    if literalFalse p.2 then (p.1, false)
    else
      let q := walk fn d.children p.1
      if q.2 then walk fn ds q.1 else (q.1, false)
termination_by l => sizeOf l
decreasing_by
all_goals first
  | (rcases d with ⟨u2, m2, c2⟩
     simp [Document.children]
     omega)
  | (rcases d with ⟨u2, m2, c2⟩
     simp [Document.children])
  | simp_all
  | omega

/-- Depth-first pre-order linearization of a forest. -/
def preorder : List Document → List Document
  | [] => []
  | d :: ds => d :: (preorder d.children ++ preorder ds)
termination_by l => sizeOf l
decreasing_by
all_goals first
  | (rcases d with ⟨u2, m2, c2⟩
     simp [Document.children]
     omega)
  | (rcases d with ⟨u2, m2, c2⟩
     simp [Document.children])
  | simp_all
  | omega

/-- Reference semantics for `walk`: run the visitor over a flat list of
nodes, stopping permanently the moment it returns the literal `false`. -/
def visitSeq {σ : Type} (fn : σ → Document → σ × JSVal) :
    σ → List Document → σ × Bool
  | s, [] => (s, true)
  | s, d :: ds =>
    let p := fn s d
    if literalFalse p.2 then (p.1, false) else visitSeq fn p.1 ds

/-- The index: root of the document tree together with its three derived
caches (`treesaver.ui.Index`). -/
structure Index : Type where
  children : List Document
  documentMap : List (String × List Document)
  documentPositions : List (String × List Nat)
  documents : List Document

/-- The `if (m[k]) { m[k].push(v) } else { m[k] = [v] }` pattern of `update`:
append `v` to the entry at `k`, creating the entry on first occurrence.
(The looked-up values are JS arrays, which are always truthy.) -/
def pushAssoc {α : Type} (m : List (String × List α)) (k : String) (v : α) :
    List (String × List α) :=
  match alookup m k with
  | some _ => pushAt m k v
  | none => m ++ [(k, [v])]
where
  /-- In-place `m[k].push(v)`: append `v` to the value stored at key `k`. -/
  pushAt : List (String × List α) → String → α → List (String × List α)
  | [], _, _ => []
  | (k', l) :: rest, k, v =>
    if k' = k then (k', l ++ [v]) :: pushAt rest k v else (k', l) :: pushAt rest k v

/-- The state threaded by `update`'s visitor: the three caches being rebuilt
plus the running flat-index counter (the `index` local of `update`). -/
structure UpdSt : Type where
  documents : List Document
  documentMap : List (String × List Document)
  documentPositions : List (String × List Nat)
  index : Nat

/-- The visitor passed by `update` to `walk`: push the document onto
`documentMap[doc.url]` and `documents`, record the flat index in
`documentPositions[doc.url]`, increment the counter.  The JS function body
ends in a statement, so the visitor returns `undefined`. -/
def updateVisit (st : UpdSt) (doc : Document) : UpdSt × JSVal :=
  ({ documents := st.documents ++ [doc]
     documentMap := pushAssoc st.documentMap doc.url doc
     documentPositions := pushAssoc st.documentPositions doc.url st.index
     index := st.index + 1 }, JSVal.undefined)

/-- `treesaver.ui.Index.prototype.update`: reset the three caches to empty,
walk the whole tree rebuilding them, then fire the `UPDATED` event (an
external side effect, not modelled). -/
def Index.update (idx : Index) : Index :=
  let r := walk updateVisit idx.children ⟨[], [], [], 0⟩
  { idx with
      documents := r.1.documents
      documentMap := r.1.documentMap
      documentPositions := r.1.documentPositions }

/-- `treesaver.ui.Index.prototype.getDocumentIndex`: live walk tracking the
flat position of the last document equal to `doc`, starting from `-1`. -/
def Index.getDocumentIndex (idx : Index) (doc : Document) : Int :=
  (walk
    (fun (st : Int × Nat) d =>
      ((if d.equalsDoc doc then (st.2 : Int) else st.1, st.2 + 1), JSVal.undefined))
    idx.children (-1, 0)).1.1

/-- `treesaver.ui.Index.prototype.get`: live walk collecting every document
equal to the url, in traversal order. -/
def Index.get (idx : Index) (url : String) : List Document :=
  (walk
    (fun (acc : List Document) d =>
      (if d.equalsUrl url then acc ++ [d] else acc, JSVal.undefined))
    idx.children []).1

/-- `treesaver.ui.Index.prototype.getDocumentByIndex`: read the flat cache;
an out-of-range index yields `undefined` (an absent result). -/
def Index.getDocumentByIndex (idx : Index) (i : Nat) : Option Document :=
  idx.documents.get? i

/-- `treesaver.ui.Index.prototype.getNumberOfDocuments`: the cached count. -/
def Index.getNumberOfDocuments (idx : Index) : Nat :=
  idx.documents.length

/-- `treesaver.ui.Index.prototype.getDocuments`: the cached flat sequence. -/
def Index.getDocuments (idx : Index) : List Document :=
  idx.documents

/-- The flat positions (counting from `i`) at which a document with url `u`
occurs in a list, in traversal order. -/
def matchIndices (u : String) : List Document → Nat → List Nat
  | [], _ => []
  | d :: ds, i =>
    if d.url = u then i :: matchIndices u ds (i + 1) else matchIndices u ds (i + 1)

/-- Reference value for `getDocumentIndex`: the flat pre-order position of
the last visited document whose url matches, or `-1` when none matches. -/
def lastMatchPos (doc : Document) (l : List Document) : Int :=
  match (matchIndices doc.url l 0).getLast? with
  | some i => (i : Int)
  | none => -1

/-- The list of child entries of a raw entry: the value of its `children`
field when that is present and an array (`children && Array.isArray(children)`
— a JS array is always truthy), otherwise empty. -/
def childArr (e : JSVal) : List JSVal :=
  match getField e "children" with
  | .arr xs => xs
  | _ => []

/-- `treesaver.ui.Index.prototype.parseEntry`: build a `Document` from a raw
entry.  When the `url` field is absent or falsy, warn (external side effect)
and return `null`.  Otherwise resolve the url through the external
collaborators `absoluteURL` (`treesaver.network.absoluteURL`) and `stripHash`
(`treesaver.uri.stripHash`), copy every enumerable field of the entry into
the metadata object in key order, and append the recursively parsed children
(depth first), passing each possibly-`null` result through `appendChild`. -/
def parseEntry (absoluteURL : JSVal → String) (stripHash : String → String)
    (e : JSVal) : Option Document :=
  if truthy (getField e "url") = true then
    some (Document.mk
      (stripHash (absoluteURL (getField e "url")))
      ((jsKeys e).map (fun k => (k, getField e k)))
      ((childArr e).attach.foldl
        (fun cs c => (appendChild cs (parseEntry absoluteURL stripHash c.1)).1)
        []))
  else none
termination_by sizeOf e
decreasing_by
  have hsize : ∀ (fs : List (String × JSVal)) (k : String) (v : JSVal),
      alookup fs k = some v → sizeOf v < sizeOf fs := by
    intro fs
    induction fs with
    | nil => intro k v hv; simp [alookup] at hv
    | cons p rest ih =>
      intro k v hv
      rcases p with ⟨pk, pv⟩
      rw [alookup] at hv
      by_cases hp : pk = k
      · rw [if_pos hp] at hv
        cases hv
        simp
        omega
      · rw [if_neg hp] at hv
        have := ih k v hv
        simp
        omega
  have hlt : ∀ (e2 x : JSVal), x ∈ childArr e2 → sizeOf x < sizeOf e2 := by
    intro e2 x hx
    rcases e2 with _ | _ | b | n | s | xs | fs <;>
      simp [childArr, getField] at hx
    rcases halk : alookup fs "children" with _ | v
    · rw [halk] at hx
      simp at hx
    · rw [halk] at hx
      have hv := hsize fs "children" v halk
      rcases v with _ | _ | b | n | s | ys | gs <;> simp at hx
      have hm := List.sizeOf_lt_of_mem hx
      simp at hv ⊢
      omega
  exact hlt e c.1 c.2

/-- `treesaver.ui.Index.prototype.parse`: decode and attach a document index.
The strict JSON decoder (`treesaver.json.parse`) is the external collaborator
`jsonParse`; `none` stands for the exception it throws on malformed input,
which `parse` catches (warning, empty result).  Falsy input and non-array
decoded values also yield an empty result; otherwise every entry is parsed,
`null` results are filtered out, the rest are appended as top-level children
of the index, and the appended documents are returned. -/
def Index.parse (jsonParse : String → Option JSVal)
    (absoluteURL : JSVal → String) (stripHash : String → String)
    (idx : Index) (input : JSVal) : Index × List Document :=
  if truthy input = false then (idx, [])
  else
    match (match input with
           | .str s => jsonParse s
           | v => some v) with
    | none => (idx, [])
    | some (.arr entries) =>
      let parsed := entries.map (parseEntry absoluteURL stripHash)
      let filtered := parsed.filter (fun entry => entry.isSome)
      let final := filtered.foldl
        (fun (acc : List Document × List Document) entry =>
          let p := appendChild acc.1 entry
          (p.1, acc.2 ++ p.2.toList))
        (idx.children, [])
      ({ idx with children := final.1 }, final.2)
    | some _ => (idx, [])

/-- `treesaver.ui.Settings`: a key-value settings container. -/
structure Settings : Type where
  settings : List (String × JSVal)

/-- The `treesaver.ui.Settings` constructor: `this.settings = {}` and then,
when `s` is truthy, the statement `Object.keys(s, function (key) {...}, this)`
— a plain `Object.keys` call whose extra arguments are ignored and whose
result is discarded, so the callback never runs and nothing is copied. -/
def Settings.new (s : JSVal) : Settings :=
  if truthy s = true then
    let _keys := jsKeys s
    { settings := [] }
  else
    { settings := [] }

/-- `treesaver.ui.Settings.prototype.get`: the stored value when
`settings.hasOwnProperty(name)`, the default otherwise. -/
def Settings.get (st : Settings) (name : String) (defaultValue : JSVal) : JSVal :=
  match alookup st.settings name with
  | some v => v
  | none => defaultValue

/-- JS property assignment `m[name] = value` on an object: overwrite the
existing entry or append a new one. -/
def setAssoc {α : Type} : List (String × α) → String → α → List (String × α)
  | [], k, v => [(k, v)]
  | (k', w) :: rest, k, v =>
    if k' = k then (k', v) :: rest else (k', w) :: setAssoc rest k v

/-- `treesaver.ui.Settings.prototype.set`: store and return the value. -/
def Settings.set (st : Settings) (name : String) (value : JSVal) :
    Settings × JSVal :=
  ({ settings := setAssoc st.settings name value }, value)

/-- `Array.prototype.slice.call(a, start)` for a single (possibly negative)
start argument. -/
def jsSlice (a : List JSVal) (start : Int) : List JSVal :=
  if start < 0 then a.drop ((a.length + start).toNat)
  else a.drop start.toNat

/-- JS `array.length = n`: truncate, or pad with `undefined` when `n` exceeds
the current length; a negative `n` throws a `RangeError` (`none`). -/
def jsSetLength (a : List JSVal) (n : Int) : Option (List JSVal) :=
  if n < 0 then none
  else some (a.take n.toNat ++ List.replicate (n.toNat - a.length) .undefined)

/-- `treesaver.array.remove(array, from, to)` (John Resig's `Array.remove`):
`rest = array.slice((to || from) + 1 || array.length)`, then
`array.length = from < 0 ? array.length + from : from`, then
`return array.push.apply(array, rest)` — the new array and the new length. -/
def jsRemove (a : List JSVal) (fromIdx : Int) (toIdx : Option Int) :
    Option (List JSVal × Int) :=
  let t0 : Int :=
    match toIdx with
    | some t => if t == 0 then fromIdx else t
    | none => fromIdx
  let start : Int := if t0 + 1 == 0 then (a.length : Int) else t0 + 1
  let rest := jsSlice a start
  let newLen : Int :=
    if fromIdx < 0 then (a.length : Int) + fromIdx else fromIdx
  (jsSetLength a newLen).map (fun a2 => (a2 ++ rest, ((a2 ++ rest).length : Int)))

/-! ## Theorems -/

theorem Document.sizeOf_children_lt (d : Document) : sizeOf d.children < sizeOf d := by
  cases d with
  | mk u m c => simp [Document.children]

theorem visitSeq_append {σ : Type} (fn : σ → Document → σ × JSVal)
    (xs ys : List Document) (s : σ) :
    visitSeq fn s (xs ++ ys) =
      (let p := visitSeq fn s xs
       if p.2 then visitSeq fn p.1 ys else p) := by
  induction xs generalizing s with
  | nil => simp [visitSeq]
  | cons d ds ih =>
    simp only [List.cons_append, visitSeq]
    by_cases h : literalFalse (fn s d).2 <;> simp [h, ih]

theorem walk_eq_visitSeq {σ : Type} (fn : σ → Document → σ × JSVal) :
    ∀ (ts : List Document) (s : σ), walk fn ts s = visitSeq fn s (preorder ts) := by
  have main : ∀ (n : Nat) (ts : List Document) (s : σ), sizeOf ts ≤ n →
      walk fn ts s = visitSeq fn s (preorder ts) := by
    intro n
    induction n with
    | zero => intro ts s h; cases ts <;> simp_all
    | succ n ih =>
      intro ts s h
      cases ts with
      | nil => simp [walk, preorder, visitSeq]
      | cons d ds =>
        have hc : sizeOf d.children ≤ n := by
          have := Document.sizeOf_children_lt d
          simp at h; omega
        have hd : sizeOf ds ≤ n := by simp at h; omega
        rw [walk, preorder]
        simp only [visitSeq]
        by_cases hf : literalFalse (fn s d).2
        · simp [hf]
        · simp only [hf, Bool.false_eq_true, if_false]
          rw [visitSeq_append, ih d.children ((fn s d).1) hc]
          rcases hq : visitSeq fn ((fn s d).1) (preorder d.children) with ⟨s2, ok⟩
          cases ok with
          | false => simp
          | true => simp [ih ds s2 hd]
  intro ts s
  exact main (sizeOf ts) ts s le_rfl

theorem visitSeq_no_false {σ : Type} (fn : σ → Document → σ × JSVal)
    (h : ∀ s d, literalFalse (fn s d).2 = false) :
    ∀ (l : List Document) (s : σ),
      visitSeq fn s l = (l.foldl (fun s d => (fn s d).1) s, true) := by
  intro l
  induction l with
  | nil => intro s; rfl
  | cons d ds ih => intro s; simp [visitSeq, h, ih]

theorem walk_no_false {σ : Type} (fn : σ → Document → σ × JSVal)
    (h : ∀ s d, literalFalse (fn s d).2 = false) (ts : List Document) (s : σ) :
    walk fn ts s = ((preorder ts).foldl (fun s d => (fn s d).1) s, true) := by
  rw [walk_eq_visitSeq, visitSeq_no_false fn h]

theorem matchIndices_append (u : String) (a : List Document) (d : Document)
    (i : Nat) :
    matchIndices u (a ++ [d]) i =
      matchIndices u a i ++ (if d.url = u then [i + a.length] else []) := by
  induction a generalizing i with
  | nil => by_cases h : d.url = u <;> simp [matchIndices, h]
  | cons x xs ih =>
    by_cases h : x.url = u <;>
      simp [matchIndices, h, ih, Nat.add_assoc, Nat.add_comm 1 xs.length]

theorem alookup_append {α : Type} (a b : List (String × α)) (k : String) :
    alookup (a ++ b) k = ((alookup a k).rec (alookup b k) (fun v => some v)) := by
  induction a with
  | nil => simp [alookup]
  | cons p rest ih =>
    by_cases h : p.1 = k <;> simp [alookup, h, ih]

theorem alookup_pushAt {α : Type} (m : List (String × List α)) (k : String)
    (v : α) (u : String) :
    alookup (pushAssoc.pushAt m k v) u =
      if u = k then (alookup m u).map (fun l => l ++ [v]) else alookup m u := by
  induction m with
  | nil => simp [pushAssoc.pushAt, alookup]
  | cons p rest ih =>
    rcases p with ⟨pk, pv⟩
    by_cases hp : pk = k
    · subst hp
      by_cases hu : pk = u
      · subst hu
        simp [pushAssoc.pushAt, alookup]
      · simp [pushAssoc.pushAt, alookup, hu, Ne.symm hu, ih]
    · by_cases hu : pk = u
      · subst hu
        simp [pushAssoc.pushAt, alookup, hp]
      · simp [pushAssoc.pushAt, alookup, hp, hu, ih]

theorem alookup_pushAssoc {α : Type} (m : List (String × List α)) (k : String)
    (v : α) (u : String) :
    alookup (pushAssoc m k v) u =
      if u = k then some (((alookup m k).getD []) ++ [v]) else alookup m u := by
  unfold pushAssoc
  rcases hm : alookup m k with _ | l
  · rw [alookup_append]
    by_cases hu : u = k
    · subst hu; simp [hm, alookup]
    · rcases h2 : alookup m u with _ | w <;> simp [alookup, hu, Ne.symm hu, h2]
  · rw [alookup_pushAt]
    by_cases hu : u = k
    · subst hu; simp [hm]
    · simp [hu]

theorem updateVisit_no_false (st : UpdSt) (d : Document) :
    literalFalse (updateVisit st d).2 = false := rfl

theorem updFold_spec (l : List Document) :
    (l.foldl (fun s d => (updateVisit s d).1) ⟨[], [], [], 0⟩).documents = l
    ∧ (l.foldl (fun s d => (updateVisit s d).1) ⟨[], [], [], 0⟩).index = l.length
    ∧ (∀ u,
        alookup (l.foldl (fun s d => (updateVisit s d).1) ⟨[], [], [], 0⟩).documentMap u =
          if (l.filter (fun d => d.url == u)).isEmpty then none
          else some (l.filter (fun d => d.url == u)))
    ∧ (∀ u,
        alookup (l.foldl (fun s d => (updateVisit s d).1) ⟨[], [], [], 0⟩).documentPositions u =
          if (matchIndices u l 0).isEmpty then none
          else some (matchIndices u l 0)) := by
  induction l using List.reverseRecOn with
  | nil =>
    refine ⟨rfl, rfl, fun u => rfl, fun u => rfl⟩
  | append_singleton l d ih =>
    obtain ⟨h1, h2, h3, h4⟩ := ih
    rw [List.foldl_append]
    simp only [List.foldl_cons, List.foldl_nil]
    set st := List.foldl (fun s d => (updateVisit s d).1)
      (⟨[], [], [], 0⟩ : UpdSt) l with hst
    refine ⟨?_, ?_, ?_, ?_⟩
    · simp [updateVisit, h1]
    · simp [updateVisit, h2]
    · intro u
      simp only [updateVisit]
      rw [alookup_pushAssoc]
      by_cases hu : u = d.url
      · subst hu
        rw [if_pos rfl, h3 d.url]
        by_cases hf : (l.filter (fun d' => d'.url == d.url)).isEmpty
        · have hfe : l.filter (fun d' => d'.url == d.url) = [] := by
            simpa [List.isEmpty_iff] using hf
          simp [List.filter_append, hfe]
        · have hne : ¬ l.filter (fun d' => d'.url == d.url) = [] := by
            simpa [List.isEmpty_iff] using hf
          simp [List.filter_append, hf, hne]
      · rw [if_neg hu, h3 u]
        have hd : (d.url == u) = false := by
          simpa using fun h => hu h.symm
        simp [List.filter_append, hd]
    · intro u
      simp only [updateVisit]
      rw [alookup_pushAssoc]
      by_cases hu : u = d.url
      · subst hu
        rw [if_pos rfl, h4 d.url, h2, matchIndices_append]
        by_cases hf : (matchIndices d.url l 0).isEmpty
        · have hfe : matchIndices d.url l 0 = [] := by
            simpa [List.isEmpty_iff] using hf
          simp [hfe]
        · have hne : ¬ matchIndices d.url l 0 = [] := by
            simpa [List.isEmpty_iff] using hf
          simp [hf, hne]
      · rw [if_neg hu, h4 u, matchIndices_append]
        have hd : ¬ d.url = u := fun h => hu h.symm
        simp [hd]

theorem mem_matchIndices_of_getElem (l : List Document) :
    ∀ (i i0 : Nat) (d : Document), l[i]? = some d →
      (i0 + i) ∈ matchIndices d.url l i0 := by
  induction l with
  | nil => intro i i0 d h; simp at h
  | cons x xs ih =>
    intro i i0 d h
    cases i with
    | zero =>
      simp only [List.getElem?_cons_zero, Option.some.injEq] at h
      subst h
      simp [matchIndices]
    | succ j =>
      simp only [List.getElem?_cons_succ] at h
      have := ih j (i0 + 1) d h
      have harith : i0 + (j + 1) = i0 + 1 + j := by omega
      by_cases hx : x.url = d.url <;>
        simp [matchIndices, hx, harith, this]

/-- C1: `Index.walk` is a depth-first pre-order traversal that is aborted
immediately and permanently — no further siblings, no ancestors' siblings, no
deeper recursion — the moment the visitor returns the literal value `false`,
and continues the full traversal (including into the current node's children)
for every other return value, falsy-but-not-`false` values (`undefined`,
`null`, `0`) included: for every tree and every (stateful) visitor, `walk`
coincides with running the visitor down the flat pre-order linearization and
stopping at the first literal-`false` return. -/
theorem walk_aborts_on_literal_false {σ : Type} (fn : σ → Document → σ × JSVal)
    (ts : List Document) (s : σ) :
    walk fn ts s = visitSeq fn s (preorder ts) :=
  walk_eq_visitSeq fn ts s

theorem walk_undef_visitor {σ : Type} (g : σ → Document → σ)
    (ts : List Document) (s : σ) :
    walk (fun s d => (g s d, JSVal.undefined)) ts s =
      ((preorder ts).foldl g s, true) := by
  rw [walk_no_false (fun s d => (g s d, JSVal.undefined)) (fun s d => rfl)]

theorem gdi_foldl (doc : Document) :
    ∀ (l : List Document) (r0 : Int) (i0 : Nat),
      l.foldl
        (fun (st : Int × Nat) d =>
          (if d.equalsDoc doc then (st.2 : Int) else st.1, st.2 + 1)) (r0, i0) =
      ((match (matchIndices doc.url l i0).getLast? with
        | some i => (i : Int)
        | none => r0), i0 + l.length) := by
  intro l
  induction l with
  | nil => intro r0 i0; simp [matchIndices]
  | cons d ds ih =>
    intro r0 i0
    rw [List.foldl_cons, ih]
    by_cases h : d.url = doc.url
    · have he : d.equalsDoc doc = true := by
        simp [Document.equalsDoc, h]
      rw [matchIndices, if_pos h]
      rcases hrest : matchIndices doc.url ds (i0 + 1) with _ | ⟨y, ys⟩
      · simp [he, hrest]
        omega
      · simp [he, hrest, List.getLast?_cons]
        omega
    · have he : d.equalsDoc doc = false := by
        simp [Document.equalsDoc, h]
      rw [matchIndices, if_neg h]
      simp [he]
      omega

/-- C3: `getDocumentIndex` performs a live full traversal (never aborted
early) and returns the pre-order position of the last visited document whose
`equals(doc)` holds, `-1` when none matches; in particular on a tree with two
documents sharing a canonical url it returns the position of the later one
(position 2 below), not the first. -/
theorem getDocumentIndex_last_match (idx : Index) (doc : Document) :
    idx.getDocumentIndex doc = lastMatchPos doc (preorder idx.children)
    ∧ Index.getDocumentIndex
        ⟨[Document.mk "u" [] [], Document.mk "v" [] [], Document.mk "u" [] []],
          [], [], []⟩
        (Document.mk "u" [] []) = 2 := by
  constructor
  · unfold Index.getDocumentIndex
    rw [walk_undef_visitor, gdi_foldl]
    rfl
  · simp [Index.getDocumentIndex, walk, literalFalse, Document.children,
      Document.equalsDoc, Document.url]

theorem get_foldl (url : String) :
    ∀ (l : List Document) (acc : List Document),
      l.foldl (fun acc d => if d.equalsUrl url then acc ++ [d] else acc) acc =
        acc ++ l.filter (fun d => d.equalsUrl url) := by
  intro l
  induction l with
  | nil => intro acc; simp
  | cons d ds ih =>
    intro acc
    by_cases h : d.equalsUrl url = true <;>
      simp [List.filter_cons, h, ih]

/-- C6: `get(url)` performs a live full traversal and returns exactly the
documents whose `equals(url)` holds, in depth-first pre-order; the result is
always a list — empty when nothing matches — never a null/absent value (in
this embedding its type is a bare `List`, not an `Option`). -/
theorem get_collects_matches_in_order (idx : Index) (url : String) :
    idx.get url = (preorder idx.children).filter (fun d => d.equalsUrl url) := by
  unfold Index.get
  rw [walk_undef_visitor, get_foldl]
  rfl

theorem update_unfold (idx : Index) :
    idx.update =
      { idx with
          documents :=
            ((preorder idx.children).foldl (fun s d => (updateVisit s d).1)
              ⟨[], [], [], 0⟩).documents
          documentMap :=
            ((preorder idx.children).foldl (fun s d => (updateVisit s d).1)
              ⟨[], [], [], 0⟩).documentMap
          documentPositions :=
            ((preorder idx.children).foldl (fun s d => (updateVisit s d).1)
              ⟨[], [], [], 0⟩).documentPositions } := by
  unfold Index.update
  rw [walk_no_false updateVisit updateVisit_no_false]

/-- C2: after `update`, `documents` is exactly the depth-first pre-order
linearization of the tree (the visitor never returns `false`, so every node
is visited); `documentPositions[u]` and `documentMap[u]` list, in traversal
order, exactly the flat indices (resp. documents) whose url is `u`; hence for
every flat index `i` with document `d = documents[i]`,
`documentPositions[d.url]` contains `i` and `documentMap[d.url]` contains
`d`; and the three caches are wholesale-replaced — the result is the same as
updating an index with the same tree and arbitrary (e.g. empty) old caches. -/
theorem update_rebuilds_caches (idx : Index) :
    (idx.update).documents = preorder idx.children
    ∧ (∀ u, alookup (idx.update).documentMap u =
        if ((preorder idx.children).filter (fun d => d.url == u)).isEmpty
        then none
        else some ((preorder idx.children).filter (fun d => d.url == u)))
    ∧ (∀ u, alookup (idx.update).documentPositions u =
        if (matchIndices u (preorder idx.children) 0).isEmpty then none
        else some (matchIndices u (preorder idx.children) 0))
    ∧ (∀ (i : Nat) (d : Document), (idx.update).documents[i]? = some d →
        (∃ ds, alookup (idx.update).documentMap d.url = some ds ∧ d ∈ ds)
        ∧ (∃ ps, alookup (idx.update).documentPositions d.url = some ps
            ∧ i ∈ ps))
    ∧ idx.update = Index.update ⟨idx.children, [], [], []⟩ := by
  obtain ⟨f1, f2, f3, f4⟩ := updFold_spec (preorder idx.children)
  have h1 : (idx.update).documents = preorder idx.children := by
    rw [update_unfold]; exact f1
  have h3 : ∀ u, alookup (idx.update).documentMap u =
      if ((preorder idx.children).filter (fun d => d.url == u)).isEmpty
      then none
      else some ((preorder idx.children).filter (fun d => d.url == u)) := by
    intro u; rw [update_unfold]; exact f3 u
  have h4 : ∀ u, alookup (idx.update).documentPositions u =
      if (matchIndices u (preorder idx.children) 0).isEmpty then none
      else some (matchIndices u (preorder idx.children) 0) := by
    intro u; rw [update_unfold]; exact f4 u
  refine ⟨h1, h3, h4, ?_, ?_⟩
  · intro i d hid
    rw [h1] at hid
    have hmem : d ∈ preorder idx.children := List.getElem?_mem hid
    have hfmem : d ∈ (preorder idx.children).filter (fun d' => d'.url == d.url) :=
      List.mem_filter.mpr ⟨hmem, by simp⟩
    have hpmem : i ∈ matchIndices d.url (preorder idx.children) 0 := by
      have := mem_matchIndices_of_getElem (preorder idx.children) i 0 d hid
      simpa using this
    constructor
    · refine ⟨(preorder idx.children).filter (fun d' => d'.url == d.url), ?_, hfmem⟩
      rw [h3 d.url, if_neg]
      simp only [List.isEmpty_iff]
      exact List.ne_nil_of_mem hfmem
    · refine ⟨matchIndices d.url (preorder idx.children) 0, ?_, hpmem⟩
      rw [h4 d.url, if_neg]
      simp only [List.isEmpty_iff]
      exact List.ne_nil_of_mem hpmem
  · cases idx
    rfl

/-- Witness for C2 on the one-document index `[{url: "a"}]`: position `0`
carries the document, and both caches contain it under url `"a"`. -/
theorem update_rebuilds_caches_witness :
    (Index.update ⟨[Document.mk "a" [] []], [], [], []⟩).documents[0]?
        = some (Document.mk "a" [] [])
    ∧ ((∃ ds, alookup
          (Index.update ⟨[Document.mk "a" [] []], [], [], []⟩).documentMap
          (Document.mk "a" [] []).url = some ds
          ∧ Document.mk "a" [] [] ∈ ds)
       ∧ (∃ ps, alookup
          (Index.update ⟨[Document.mk "a" [] []], [], [], []⟩).documentPositions
          (Document.mk "a" [] []).url = some ps ∧ 0 ∈ ps)) := by
  have h : (Index.update ⟨[Document.mk "a" [] []], [], [], []⟩).documents[0]?
      = some (Document.mk "a" [] []) := by
    simp [Index.update, walk, updateVisit, literalFalse, Document.children,
      Document.url, pushAssoc, alookup]
  exact ⟨h, (update_rebuilds_caches ⟨[Document.mk "a" [] []], [], [], []⟩).2.2.2.1
    0 (Document.mk "a" [] []) h⟩

theorem parseEntry_none_iff (absoluteURL : JSVal → String)
    (stripHash : String → String) (e : JSVal) :
    parseEntry absoluteURL stripHash e = none
      ↔ truthy (getField e "url") = false := by
  rw [parseEntry]
  by_cases h : truthy (getField e "url") = true <;> simp [h]

theorem foldl_appendChild_plain (f : JSVal → Option Document) :
    ∀ (xs : List JSVal) (init : List Document),
      xs.foldl (fun cs x => (appendChild cs (f x)).1) init =
        init ++ xs.filterMap f := by
  intro xs
  induction xs with
  | nil => intro init; simp
  | cons x xs ih =>
    intro init
    rw [List.foldl_cons]
    rcases hf : f x with _ | d
    · refine (ih init).trans ?_
      simp [List.filterMap_cons, hf]
    · refine (ih (init ++ [d])).trans ?_
      simp [List.filterMap_cons, hf]

theorem foldl_appendChild_attach (f : JSVal → Option Document)
    (xs : List JSVal) (init : List Document) :
    xs.attach.foldl (fun cs c => (appendChild cs (f c.1)).1) init =
      init ++ xs.filterMap f := by
  rw [List.foldl_attach xs (fun cs x => (appendChild cs (f x)).1) init]
  exact foldl_appendChild_plain f xs init

theorem parseEntry_some_eq (absoluteURL : JSVal → String)
    (stripHash : String → String) (e : JSVal)
    (h : truthy (getField e "url") = true) :
    parseEntry absoluteURL stripHash e =
      some (Document.mk
        (stripHash (absoluteURL (getField e "url")))
        ((jsKeys e).map (fun k => (k, getField e k)))
        ((childArr e).filterMap (parseEntry absoluteURL stripHash))) := by
  rw [parseEntry, if_pos h,
    foldl_appendChild_attach (parseEntry absoluteURL stripHash) (childArr e) []]
  simp

theorem parseEntry_children (absoluteURL : JSVal → String)
    (stripHash : String → String) (e : JSVal) (d : Document)
    (h : parseEntry absoluteURL stripHash e = some d) :
    d.children = (childArr e).filterMap (parseEntry absoluteURL stripHash) := by
  by_cases hu : truthy (getField e "url") = true
  · rw [parseEntry_some_eq absoluteURL stripHash e hu] at h
    cases h
    rfl
  · rw [parseEntry, if_neg hu] at h
    cases h

theorem filter_isSome_filterMap {α : Type} (l : List (Option α)) :
    (l.filter (fun o => o.isSome)).filterMap id = l.filterMap id := by
  induction l with
  | nil => rfl
  | cons o rest ih => rcases o with _ | a <;> simp [ih]

theorem parse_fold_app (rs : List (Option Document)) :
    ∀ (cs0 out0 : List Document),
      rs.foldl
        (fun (acc : List Document × List Document) entry =>
          let p := appendChild acc.1 entry
          (p.1, acc.2 ++ p.2.toList)) (cs0, out0) =
      (cs0 ++ rs.filterMap id, out0 ++ rs.filterMap id) := by
  induction rs with
  | nil => intro cs0 out0; simp
  | cons r rest ih =>
    intro cs0 out0
    rw [List.foldl_cons]
    rcases r with _ | d
    · refine (ih cs0 (out0 ++ [])).trans ?_
      simp
    · refine (ih (cs0 ++ [d]) (out0 ++ [d])).trans ?_
      simp

theorem parse_arr_eq (jsonParse : String → Option JSVal)
    (absoluteURL : JSVal → String) (stripHash : String → String)
    (idx : Index) (entries : List JSVal) :
    Index.parse jsonParse absoluteURL stripHash idx (.arr entries) =
      ({ idx with children :=
          idx.children ++ entries.filterMap (parseEntry absoluteURL stripHash) },
       entries.filterMap (parseEntry absoluteURL stripHash)) := by
  have heq : Index.parse jsonParse absoluteURL stripHash idx (.arr entries) =
      ((({ idx with children :=
            (((entries.map (parseEntry absoluteURL stripHash)).filter
                (fun entry => entry.isSome)).foldl
              (fun (acc : List Document × List Document) entry =>
                let p := appendChild acc.1 entry
                (p.1, acc.2 ++ p.2.toList))
              (idx.children, [])).1 } : Index),
        (((entries.map (parseEntry absoluteURL stripHash)).filter
            (fun entry => entry.isSome)).foldl
          (fun (acc : List Document × List Document) entry =>
            let p := appendChild acc.1 entry
            (p.1, acc.2 ++ p.2.toList))
          (idx.children, [])).2)) := rfl
  rw [heq, parse_fold_app, filter_isSome_filterMap, List.filterMap_map]
  simp [Function.comp]

/-- C4: on an array input, `parse` maps each entry through `parseEntry`
(which returns `null` exactly when the entry's url field is absent or falsy),
filters out the `null` results, appends each surviving document as a
top-level child of the index in entry order, and returns the sequence of
appended documents. -/
theorem parse_attaches_filtered_documents (jsonParse : String → Option JSVal)
    (absoluteURL : JSVal → String) (stripHash : String → String)
    (idx : Index) (entries : List JSVal) :
    ((Index.parse jsonParse absoluteURL stripHash idx (.arr entries)).2 =
        entries.filterMap (parseEntry absoluteURL stripHash))
    ∧ ((Index.parse jsonParse absoluteURL stripHash idx (.arr entries)).1.children =
        idx.children ++ entries.filterMap (parseEntry absoluteURL stripHash))
    ∧ (∀ e, parseEntry absoluteURL stripHash e = none
        ↔ truthy (getField e "url") = false) := by
  rw [parse_arr_eq]
  exact ⟨rfl, rfl, parseEntry_none_iff absoluteURL stripHash⟩

/-- C5: `parse` never throws and returns an empty result, leaving the index
unchanged, when: the input is falsy; the input is a string whose decode fails
(the thrown decode error is caught); or the value in hand after the decode
step is not an array (a warning is logged): a decoded non-array, or a truthy
non-string non-array input. -/
theorem parse_error_cases_empty (jsonParse : String → Option JSVal)
    (absoluteURL : JSVal → String) (stripHash : String → String)
    (idx : Index) :
    (∀ input, truthy input = false →
        Index.parse jsonParse absoluteURL stripHash idx input = (idx, []))
    ∧ (∀ s, jsonParse s = none →
        Index.parse jsonParse absoluteURL stripHash idx (.str s) = (idx, []))
    ∧ (∀ s v, jsonParse s = some v → v.isArr = false →
        Index.parse jsonParse absoluteURL stripHash idx (.str s) = (idx, []))
    ∧ (∀ input, truthy input = true → input.isStr = false →
        input.isArr = false →
        Index.parse jsonParse absoluteURL stripHash idx input = (idx, [])) := by
  refine ⟨?_, ?_, ?_, ?_⟩
  · intro input h
    unfold Index.parse
    rw [if_pos h]
  · intro s hjp
    unfold Index.parse
    by_cases hs : truthy (JSVal.str s) = false
    · rw [if_pos hs]
    · rw [if_neg hs]
      split
      · rfl
      · next es heq =>
        have heq2 : jsonParse s = some (JSVal.arr es) := heq
        rw [hjp] at heq2
        cases heq2
      · rfl
  · intro s v hjp hv
    unfold Index.parse
    by_cases hs : truthy (JSVal.str s) = false
    · rw [if_pos hs]
    · rw [if_neg hs]
      split
      · rfl
      · next es heq =>
        have heq2 : jsonParse s = some (JSVal.arr es) := heq
        rw [hjp] at heq2
        injection heq2 with heq3
        subst heq3
        simp [JSVal.isArr] at hv
      · rfl
  · intro input ht hstr harr
    unfold Index.parse
    rw [if_neg (by simp [ht])]
    split
    · rfl
    · next es heq =>
      rcases input with _ | _ | b | n | s2 | es2 | fs2 <;>
        simp_all [truthy, JSVal.isStr, JSVal.isArr]
    · rfl

/-- Witness for C5: falsy input, failing decode, decode to a non-array, and
a truthy non-string non-array input all yield `(idx, [])`. -/
theorem parse_error_cases_empty_witness :
    Index.parse (fun _ => none) (fun _ => "") (fun s => s) ⟨[], [], [], []⟩
        (JSVal.bool false) = (⟨[], [], [], []⟩, [])
    ∧ Index.parse (fun _ => none) (fun _ => "") (fun s => s) ⟨[], [], [], []⟩
        (.str "bad") = (⟨[], [], [], []⟩, [])
    ∧ Index.parse (fun _ => some (JSVal.num 5)) (fun _ => "") (fun s => s)
        ⟨[], [], [], []⟩ (.str "x") = (⟨[], [], [], []⟩, [])
    ∧ Index.parse (fun _ => none) (fun _ => "") (fun s => s) ⟨[], [], [], []⟩
        (JSVal.obj []) = (⟨[], [], [], []⟩, []) := by
  refine ⟨?_, ?_, ?_, ?_⟩
  · exact (parse_error_cases_empty (fun _ => none) (fun _ => "") (fun s => s)
      ⟨[], [], [], []⟩).1 (JSVal.bool false) rfl
  · exact (parse_error_cases_empty (fun _ => none) (fun _ => "") (fun s => s)
      ⟨[], [], [], []⟩).2.1 "bad" rfl
  · exact (parse_error_cases_empty (fun _ => some (JSVal.num 5)) (fun _ => "")
      (fun s => s) ⟨[], [], [], []⟩).2.2.1 "x" (JSVal.num 5) rfl rfl
  · exact (parse_error_cases_empty (fun _ => none) (fun _ => "") (fun s => s)
      ⟨[], [], [], []⟩).2.2.2 (JSVal.obj []) rfl rfl rfl

theorem keys_map_eq_self (fs : List (String × JSVal))
    (h : (fs.map Prod.fst).Nodup) :
    (jsKeys (JSVal.obj fs)).map (fun k => (k, getField (JSVal.obj fs) k)) = fs := by
  induction fs with
  | nil => rfl
  | cons p rest ih =>
    rcases p with ⟨k0, v0⟩
    have h' : (k0 :: rest.map Prod.fst).Nodup := by simpa using h
    have hnotin : k0 ∉ rest.map Prod.fst := (List.nodup_cons.mp h').1
    have hnd2 : (rest.map Prod.fst).Nodup := (List.nodup_cons.mp h').2
    simp only [jsKeys, List.map_cons]
    congr 1
    · simp [getField, alookup]
    · have hpt : ∀ k ∈ rest.map Prod.fst,
          (k, getField (JSVal.obj ((k0, v0) :: rest)) k) =
            (k, getField (JSVal.obj rest) k) := by
        intro k hk
        have hkk : ¬ k0 = k := fun hh2 => hnotin (hh2 ▸ hk)
        simp [getField, alookup, hkk]
      rw [List.map_congr_left hpt]
      simpa [jsKeys] using ih hnd2

/-- C7: for a raw entry (with unique keys) whose `url` field is truthy, the
document built by `parseEntry` carries a metadata mapping that is a full
shallow copy of every enumerable field of the entry — the raw `url` and
`children` fields included, nothing filtered out — while the document's own
url is the resolved, fragment-stripped canonical form. -/
theorem parseEntry_meta_full_copy (absoluteURL : JSVal → String)
    (stripHash : String → String) (fs : List (String × JSVal))
    (hnd : (fs.map Prod.fst).Nodup)
    (hurl : truthy (getField (JSVal.obj fs) "url") = true) :
    ∃ d, parseEntry absoluteURL stripHash (JSVal.obj fs) = some d
      ∧ d.meta = fs
      ∧ d.url = stripHash (absoluteURL (getField (JSVal.obj fs) "url"))
      ∧ alookup d.meta "url" = alookup fs "url"
      ∧ alookup d.meta "children" = alookup fs "children" := by
  have hm : (Document.mk
      (stripHash (absoluteURL (getField (JSVal.obj fs) "url")))
      ((jsKeys (JSVal.obj fs)).map (fun k => (k, getField (JSVal.obj fs) k)))
      ((childArr (JSVal.obj fs)).filterMap
        (parseEntry absoluteURL stripHash))).meta = fs := by
    simpa [Document.meta] using keys_map_eq_self fs hnd
  exact ⟨_, parseEntry_some_eq absoluteURL stripHash _ hurl, hm,
    by simp [Document.url], by rw [hm], by rw [hm]⟩

/-- Witness for C7 on the entry `{url: "u", children: 0}` with resolution
collaborators `absoluteURL = const "A"`, `stripHash = id`. -/
theorem parseEntry_meta_full_copy_witness :
    ∃ d, parseEntry (fun _ => "A") (fun s => s)
        (JSVal.obj [("url", JSVal.str "u"), ("children", JSVal.num 0)]) = some d
      ∧ d.meta = [("url", JSVal.str "u"), ("children", JSVal.num 0)]
      ∧ d.url = (fun s => s) ((fun _ : JSVal => "A")
          (getField (JSVal.obj [("url", JSVal.str "u"),
            ("children", JSVal.num 0)]) "url"))
      ∧ alookup d.meta "url" =
          alookup [("url", JSVal.str "u"), ("children", JSVal.num 0)] "url"
      ∧ alookup d.meta "children" =
          alookup [("url", JSVal.str "u"), ("children", JSVal.num 0)] "children" :=
  parseEntry_meta_full_copy (fun _ => "A") (fun s => s)
    [("url", JSVal.str "u"), ("children", JSVal.num 0)]
    (by decide) (by decide)

/-- C8: no node's children sequence ever contains a null placeholder:
`appendChild` returns the unchanged input and appends nothing when given a
null node, so even though `parseEntry` passes possibly-null recursive parse
results straight to `appendChild`, every constructed node's children are
exactly the successfully parsed (non-null) children, and `parse` appends
exactly the non-null top-level documents. -/
theorem parse_no_null_children (absoluteURL : JSVal → String)
    (stripHash : String → String) :
    (∀ cs, appendChild cs none = (cs, none))
    ∧ (∀ e d, parseEntry absoluteURL stripHash e = some d →
        d.children = (childArr e).filterMap (parseEntry absoluteURL stripHash))
    ∧ (∀ (jsonParse : String → Option JSVal) (idx : Index)
        (entries : List JSVal),
        (Index.parse jsonParse absoluteURL stripHash idx (.arr entries)).1.children
          = idx.children ++ entries.filterMap (parseEntry absoluteURL stripHash)) := by
  refine ⟨fun cs => rfl, parseEntry_children absoluteURL stripHash, ?_⟩
  intro jp idx entries
  rw [parse_arr_eq]

/-- Witness for C8: parsing `{url: "u", children: [{url: "c"}, {}]}` (with
`absoluteURL` reading the raw string and `stripHash = id`) yields a document
whose children are exactly the one successfully parsed child — the url-less
child contributes no placeholder. -/
theorem parse_no_null_children_witness :
    (Document.mk "u"
        [("url", JSVal.str "u"),
          ("children", JSVal.arr [JSVal.obj [("url", JSVal.str "c")], JSVal.obj []])]
        [Document.mk "c" [("url", JSVal.str "c")] []]).children =
      (childArr (JSVal.obj
        [("url", JSVal.str "u"),
          ("children", JSVal.arr [JSVal.obj [("url", JSVal.str "c")],
            JSVal.obj []])])).filterMap
        (parseEntry (fun v => match v with | JSVal.str s => s | _ => "")
          (fun s => s)) := by
  have hchild : parseEntry
      (fun v => match v with | JSVal.str s => s | _ => "") (fun s => s)
      (JSVal.obj [("url", JSVal.str "c")]) =
      some (Document.mk "c" [("url", JSVal.str "c")] []) := by
    rw [parseEntry_some_eq _ _ _ (by decide)]
    rfl
  have hbad : parseEntry
      (fun v => match v with | JSVal.str s => s | _ => "") (fun s => s)
      (JSVal.obj []) = none := by
    rw [parseEntry]
    rfl
  have hparent : parseEntry
      (fun v => match v with | JSVal.str s => s | _ => "") (fun s => s)
      (JSVal.obj [("url", JSVal.str "u"),
        ("children", JSVal.arr [JSVal.obj [("url", JSVal.str "c")],
          JSVal.obj []])]) =
      some (Document.mk "u"
        [("url", JSVal.str "u"),
          ("children", JSVal.arr [JSVal.obj [("url", JSVal.str "c")], JSVal.obj []])]
        [Document.mk "c" [("url", JSVal.str "c")] []]) := by
    rw [parseEntry_some_eq _ _ _ (by decide)]
    simp [childArr, getField, alookup, jsKeys, List.filterMap_cons,
      hchild, hbad]
  exact (parse_no_null_children
    (fun v => match v with | JSVal.str s => s | _ => "") (fun s => s)).2.1
    _ _ hparent

/-- C9: the `Settings` constructor's intended shallow copy never executes —
the iteration callback is passed as the second argument of `Object.keys`,
which ignores extra arguments — so for every settings object `s`, key `k`
and default `d`, a fresh `Settings(s)` has an empty internal settings map
and `get(k, d)` returns `d`. -/
theorem settings_copy_never_runs (s : JSVal) (k : String) (d : JSVal) :
    (Settings.new s).settings = [] ∧ (Settings.new s).get k d = d := by
  have h : (Settings.new s).settings = [] := by
    unfold Settings.new
    by_cases hb : truthy s = true <;> simp [hb]
  exact ⟨h, by simp [Settings.get, h, alookup]⟩

/-- C10: for `0 ≤ from ≤ to < a.length`, `treesaver.array.remove(a, from, to)`
turns `a` into the original sequence with positions `from..to` (inclusive)
deleted, preserving the order of the remaining elements, and returns the new
length `a.length - (to - from + 1)`; with `to` omitted exactly the single
element at position `from` is removed. -/
theorem array_remove_deletes_range (a : List JSVal) (f t : Int)
    (h0 : 0 ≤ f) (h1 : f ≤ t) (h2 : t < (a.length : Int)) :
    jsRemove a f (some t) =
      some (a.take f.toNat ++ a.drop (t + 1).toNat,
        (a.length : Int) - (t - f + 1))
    ∧ jsRemove a f none =
      some (a.take f.toNat ++ a.drop (f + 1).toNat, (a.length : Int) - 1) := by
  have hf0 : ¬ f < 0 := by omega
  have hft : f.toNat ≤ a.length := by omega
  have hsetl : jsSetLength a f = some (a.take f.toNat) := by
    unfold jsSetLength
    rw [if_neg hf0]
    have hrep : f.toNat - a.length = 0 := by omega
    simp [hrep]
  constructor
  · have ht0 : (if (t == 0) = true then f else t) = t := by
      rcases eq_or_ne t 0 with h | h
      · have hfz : f = 0 := by omega
        simp [h, hfz]
      · simp [h]
    have ht1z : ((t + 1 : Int) == 0) = false := by
      simp; omega
    have hslice : jsSlice a (t + 1) = a.drop (t + 1).toNat := by
      unfold jsSlice
      rw [if_neg (by omega)]
    unfold jsRemove
    simp only [ht0, ht1z, Bool.false_eq_true, if_false, hf0, hslice, hsetl,
      Option.map_some]
    refine congrArg some (Prod.ext rfl ?_)
    simp only [List.length_append, List.length_take, List.length_drop]
    omega
  · have ht0f : ((f + 1 : Int) == 0) = false := by
      simp; omega
    have hslice : jsSlice a (f + 1) = a.drop (f + 1).toNat := by
      unfold jsSlice
      rw [if_neg (by omega)]
    unfold jsRemove
    simp only [ht0f, Bool.false_eq_true, if_false, hf0, hslice, hsetl,
      Option.map_some]
    refine congrArg some (Prod.ext rfl ?_)
    simp only [List.length_append, List.length_take, List.length_drop]
    omega

/-- Witness for C10: removing positions 1..2 of a four-element array leaves
the outer elements and returns length 2; with `to` omitted only position 1
goes, returning length 3. -/
theorem array_remove_deletes_range_witness :
    jsRemove [JSVal.num 1, JSVal.num 2, JSVal.num 3, JSVal.num 4] 1 (some 2) =
      some ([JSVal.num 1, JSVal.num 4], 2)
    ∧ jsRemove [JSVal.num 1, JSVal.num 2, JSVal.num 3, JSVal.num 4] 1 none =
      some ([JSVal.num 1, JSVal.num 3, JSVal.num 4], 3) := by
  have h := array_remove_deletes_range
    [JSVal.num 1, JSVal.num 2, JSVal.num 3, JSVal.num 4] 1 2
    (by decide) (by decide) (by decide)
  constructor
  · have h1 := h.1
    norm_num at h1
    convert h1 using 2 <;> rfl
  · have h2 := h.2
    norm_num at h2
    convert h2 using 2 <;> rfl

end Treesaver
